import Mathlib

/-!
Verification of the tiny-shell repository (src/tinyshell_final.c) against its
natural-language specification.  The C program is shallowly embedded: the job
table is a `List Job`, the table-scanning `for` loops become `findSlot`, pids
and jids are `Int` (pid_t and int are signed), and the stateful shell is a
step relation on an explicit `Shell` state.  Every definition is translated
from the source file; definitions that follow the spec's words instead (for
refinement comparisons) are named `spec...` and marked as such.
-/

namespace TShell

/-- Job states, tinyshell_final.c lines 23-27: UNDEF, FG, BG, ST. -/
inductive JState
  | undef
  | fg
  | bg
  | st
deriving DecidableEq, Repr

/-- `struct job_t`, tinyshell_final.c lines 30-35.  `pid` is the process-group
leader's PID, `jid` the shell-local job id. -/
structure Job where
  pid : Int
  jid : Int
  state : JState
  cmdline : String
deriving DecidableEq, Repr

instance : Inhabited Job := ⟨⟨0, 0, JState.undef, ""⟩⟩

/-- The fixed-capacity array `struct job_t jobs[MAX_JOBS]` is modelled as a
list (of length `MAX_JOBS` in every reachable shell state). -/
abbrev JobTable := List Job

/-- Contents written by `clearjob` (lines 360-362): pid 0, jid 0, UNDEF. -/
def clearedJob : Job := ⟨0, 0, JState.undef, ""⟩

/-- MAX_JOBS (line 20). -/
def MAX_JOBS : Nat := 16

/-- MAX_ARGS (line 19). -/
def MAX_ARGS : Nat := 64

/-- `initjobs` (lines 363-365): every slot cleared. -/
def initjobs : JobTable := List.replicate MAX_JOBS clearedJob

/-- The scanning loop `for (i=0; i<MAX_JOBS; i++) if (cond(jobs[i])) ...`
shared by addjob / deletejob / getjobpid / getjobjid: the index of the first
slot satisfying `p`, if any. -/
def findSlot (p : Job → Bool) : JobTable → Option Nat
  | [] => none
  | j :: t => if p j then some 0 else (findSlot p t).map (fun n => n + 1)

theorem findSlot_some {p : Job → Bool} :
    ∀ {t : JobTable} {i : Nat}, findSlot p t = some i →
      ∃ h : i < t.length, p (t.get ⟨i, h⟩) = true ∧
        ∀ k (hk : k < i), p (t.get ⟨k, Nat.lt_trans hk h⟩) = false := by
  intro t
  induction t with
  | nil => intro i h; simp [findSlot] at h
  | cons j t ih =>
    intro i h
    by_cases hp : p j = true
    · have : some 0 = some i := by simpa [findSlot, hp] using h
      have h0 : i = 0 := (Option.some_inj.mp this).symm
      subst h0
      exact ⟨Nat.succ_pos _, by simpa using hp,
        fun k hk => absurd hk (Nat.not_lt_zero k)⟩
    · have h2 : (findSlot p t).map (fun n => n + 1) = some i := by
        simpa [findSlot, hp] using h
      obtain ⟨m, hm, hmi⟩ : ∃ m, findSlot p t = some m ∧ m + 1 = i := by
        cases hft : findSlot p t with
        | none => rw [hft] at h2; simp at h2
        | some m =>
          rw [hft] at h2
          exact ⟨m, rfl, by simpa using h2⟩
      subst hmi
      obtain ⟨hlt, hget, hmin⟩ := ih hm
      refine ⟨Nat.succ_lt_succ hlt, by simpa using hget, ?_⟩
      intro k hk
      match k with
      | 0 => simpa using (Bool.eq_false_iff.mpr hp)
      | Nat.succ k2 =>
        have hk2 : k2 < m := Nat.lt_of_succ_lt_succ hk
        simpa using hmin k2 hk2

theorem findSlot_none {p : Job → Bool} :
    ∀ {t : JobTable}, findSlot p t = none ↔ ∀ jb ∈ t, p jb = false := by
  intro t
  induction t with
  | nil => simp [findSlot]
  | cons j t ih =>
    by_cases hp : p j = true
    · constructor
      · intro h; simp [findSlot, hp] at h
      · intro h
        have := h j (List.mem_cons_self j t)
        rw [hp] at this
        exact absurd this (by simp)
    · constructor
      · intro h
        have h2 : findSlot p t = none := by
          have : (findSlot p t).map (fun n => n + 1) = none := by
            simpa [findSlot, hp] using h
          simpa [Option.map_eq_none] using this
        intro jb hjb
        rcases List.mem_cons.mp hjb with h3 | h3
        · subst h3; exact Bool.eq_false_iff.mpr hp
        · exact (ih.mp h2) jb h3
      · intro h
        have h2 : findSlot p t = none :=
          ih.mpr (fun jb hjb => h jb (List.mem_cons_of_mem j hjb))
        simp [findSlot, hp, h2]

theorem findSlot_eq_some_of {p : Job → Bool} :
    ∀ {t : JobTable} {i : Nat} (h : i < t.length),
      p (t.get ⟨i, h⟩) = true →
      (∀ k (hk : k < i), p (t.get ⟨k, Nat.lt_trans hk h⟩) = false) →
      findSlot p t = some i := by
  intro t
  induction t with
  | nil => intro i h; simp at h
  | cons j t ih =>
    intro i h hget hmin
    match i with
    | 0 =>
      simp at hget
      simp [findSlot, hget]
    | Nat.succ m =>
      have hj : p j = false := by simpa using hmin 0 (Nat.succ_pos m)
      have hm : m < t.length := Nat.lt_of_succ_lt_succ h
      have : findSlot p t = some m := by
        refine ih hm (by simpa using hget) ?_
        intro k hk
        simpa using hmin (k + 1) (Nat.succ_lt_succ hk)
      simp [findSlot, hj, this]

/-- `addjob` (lines 366-378).  Returns (new table, new next_jid, success).
The global `next_jid` is threaded explicitly. -/
def addjob (t : JobTable) (nextJid : Int) (pid : Int) (state : JState)
    (cmdline : String) : JobTable × Int × Bool :=
  if pid < 1 then (t, nextJid, false)
  else
    match findSlot (fun jb => jb.pid = 0) t with
    | some i => (t.set i ⟨pid, nextJid, state, cmdline⟩, nextJid + 1, true)
    | none => (t, nextJid, false)

/-- `deletejob` (lines 379-388). -/
def deletejob (t : JobTable) (pid : Int) : JobTable × Bool :=
  if pid < 1 then (t, false)
  else
    match findSlot (fun jb => jb.pid = pid) t with
    | some i => (t.set i clearedJob, true)
    | none => (t, false)

/-- `getjobpid` (lines 389-392): pointer to the first slot with this pid,
modelled as its index. -/
def getjobpid (t : JobTable) (pid : Int) : Option Nat :=
  findSlot (fun jb => jb.pid = pid) t

/-- `getjobjid` (lines 393-396). -/
def getjobjid (t : JobTable) (jid : Int) : Option Nat :=
  findSlot (fun jb => jb.jid = jid) t

/-- `pid2jid` (lines 397-400). -/
def pid2jid (t : JobTable) (pid : Int) : Int :=
  match getjobpid t pid with
  | some i => match t.get? i with
    | some jb => jb.jid
    | none => 0
  | none => 0

/-- C10.  For every pid argument less than 1, addjob and deletejob return
failure (0 in C, `false` here) and leave every slot of the table and the jid
counter unchanged; empty slots store pid 0, yet delete(0) clears nothing. -/
theorem c10_guard_nonpositive_pid (t : JobTable) (n pid : Int) (jst : JState)
    (cmd : String) (h : pid < 1) :
    addjob t n pid jst cmd = (t, n, false) ∧
    deletejob t pid = (t, false) ∧
    clearedJob.pid = 0 := by
  refine ⟨?_, ?_, rfl⟩
  · simp [addjob, h]
  · simp [deletejob, h]

theorem c10_guard_nonpositive_pid_witness :
    addjob initjobs 1 0 JState.bg "" = (initjobs, 1, false) ∧
    deletejob initjobs 0 = (initjobs, false) ∧
    clearedJob.pid = 0 := by
  have h := c10_guard_nonpositive_pid initjobs 1 0 JState.bg "" (by decide)
  exact ⟨h.1, h.2.1, h.2.2⟩

/-- C5.  When the caller passes a real pgid (≥ 1) and the table is well formed
(a slot is empty, i.e. pid 0, exactly when its state is Undefined), addjob
populates the first Undefined slot with the given pgid/state/cmdline and the
current next jid, increments the counter and succeeds; when no Undefined slot
exists among the 16 slots it fails with table and counter unchanged. -/
theorem c5_addjob_first_undef (t : JobTable) (n pid : Int) (jst : JState)
    (cmd : String) (hpid : 1 ≤ pid)
    (hwf : ∀ jb ∈ t, (jb.pid = 0 ↔ jb.state = JState.undef)) :
    (∀ i (hi : i < t.length), (t.get ⟨i, hi⟩).state = JState.undef →
      (∀ k (hk : k < i), (t.get ⟨k, Nat.lt_trans hk hi⟩).state ≠ JState.undef) →
      addjob t n pid jst cmd = (t.set i ⟨pid, n, jst, cmd⟩, n + 1, true)) ∧
    ((∀ jb ∈ t, jb.state ≠ JState.undef) → t.length = MAX_JOBS →
      addjob t n pid jst cmd = (t, n, false)) := by
  have hnl : ¬ pid < 1 := by omega
  constructor
  · intro i hi hundef hmin
    have hfind : findSlot (fun jb => jb.pid = 0) t = some i := by
      refine findSlot_eq_some_of hi ?_ ?_
      · have := (hwf (t.get ⟨i, hi⟩) (t.get_mem i hi)).mpr hundef
        simpa using this
      · intro k hk
        have hne := hmin k hk
        have := hwf (t.get ⟨k, Nat.lt_trans hk hi⟩) (t.get_mem k (Nat.lt_trans hk hi))
        simp only [decide_eq_false_iff_not]
        intro hz
        exact hne (this.mp hz)
    simp [addjob, hnl, hfind]
  · intro hfull _
    have hfind : findSlot (fun jb => jb.pid = 0) t = none := by
      rw [findSlot_none]
      intro jb hjb
      simp only [decide_eq_false_iff_not]
      intro hz
      exact hfull jb hjb ((hwf jb hjb).mp hz)
    simp [addjob, hnl, hfind]

theorem c5_addjob_first_undef_witness :
    addjob initjobs 1 5 JState.fg "sleep 30" =
      (initjobs.set 0 ⟨5, 1, JState.fg, "sleep 30"⟩, 2, true) := by
  have h := (c5_addjob_first_undef initjobs 1 5 JState.fg "sleep 30"
    (by decide) (by decide)).1 0 (by decide) (by decide)
    (fun k hk => absurd hk (Nat.not_lt_zero k))
  exact h


/-! ## The fg / bg built-in (`do_bgfg`, lines 310-336) -/

/-- One digit-accumulation step of C `atoi`. -/
def atoiDigits : List Char → Int → Int
  | [], acc => acc
  | c :: cs, acc =>
    if '0' ≤ c ∧ c ≤ '9' then atoiDigits cs (acc * 10 + (c.toNat - 48 : Int))
    else acc

/-- C `atoi`: skip leading whitespace, optional sign, then the longest digit
prefix; 0 when no digits. -/
def atoiCore : List Char → Int
  | [] => 0
  | c :: cs =>
    if c = ' ' ∨ c = '\t' ∨ c = '\n' ∨ c = '\r' then atoiCore cs
    else if c = '-' then - atoiDigits cs 0
    else if c = '+' then atoiDigits cs 0
    else if '0' ≤ c ∧ c ≤ '9' then atoiDigits (c :: cs) 0
    else 0

def atoiC (s : String) : Int := atoiCore s.data

/-- Observable effects of `do_bgfg`: printf output, `kill(pgid, SIGCONT)`
(the pgid as passed, i.e. negated), and entering `waitfg`. -/
inductive BgfgEff
  | out (s : String)
  | sigCont (pgid : Int)
  | waitFg (pid : Int)
deriving DecidableEq, Repr

/-- Lines 327-335 of `do_bgfg`: the part after a job was resolved to slot `i`:
`kill(-(job->pid), SIGCONT)`, then set the state and either print (bg) or
enter waitfg (fg). -/
def bgfgAct (t : JobTable) (cmd : String) (i : Nat) : JobTable × List BgfgEff :=
  match t.get? i with
  | none => (t, [])
  | some j =>
    if cmd = "bg" then
      (t.set i { j with state := JState.bg },
       [BgfgEff.sigCont (-(j.pid)),
        BgfgEff.out ("[" ++ toString j.jid ++ "] (" ++ toString j.pid ++ ") " ++ j.cmdline)])
    else
      (t.set i { j with state := JState.fg },
       [BgfgEff.sigCont (-(j.pid)), BgfgEff.waitFg j.pid])

/-- `do_bgfg` (lines 310-336).  `cmd` is argv[0] ("bg" or "fg"), `arg` is
argv[1] (`none` when missing).  Returns the table after the call and the list
of effects in program order. -/
def do_bgfg (t : JobTable) (cmd : String) (arg : Option String) :
    JobTable × List BgfgEff :=
  match arg with
  | none => (t, [BgfgEff.out ("requires PID or %jobid")])
  | some id =>
    match id.data with
    | '%' :: rest =>
      let jid := atoiCore rest
      match getjobjid t jid with
      | none => (t, [BgfgEff.out ("%" ++ toString jid ++ ": No such job")])
      | some i => bgfgAct t cmd i
    | _ =>
      let p := atoiC id
      match getjobpid t p with
      | none => (t, [BgfgEff.out ("(" ++ toString p ++ "): No such process")])
      | some i => bgfgAct t cmd i

/-- C1 (code_bug evidence).  A malformed job spec (`fg %x`; atoi("x") = 0)
does NOT produce a diagnostic and does NOT leave the state unchanged on an
empty table: `getjobjid(jobs, 0)` matches the first empty slot (empty slots
store jid 0), so the shell sends SIGCONT to process group 0 (its own group),
sets that empty slot's state to FG, and enters waitfg(0) — no error message
at all.  The same happens for `bg 0` or any non-numeric pid. -/
theorem c1_malformed_spec_mutates :
    do_bgfg initjobs ("fg") (some ("%x")) =
      (initjobs.set 0 ⟨0, 0, JState.fg, ""⟩,
       [BgfgEff.sigCont 0, BgfgEff.waitFg 0]) ∧
    initjobs.set 0 ⟨0, 0, JState.fg, ""⟩ ≠ initjobs ∧
    (∀ s, BgfgEff.out s ∉ (do_bgfg initjobs ("fg") (some ("%x"))).2) := by
  refine ⟨by decide, by decide, ?_⟩
  intro s hs
  have h : (do_bgfg initjobs ("fg") (some ("%x"))).2 =
      [BgfgEff.sigCont 0, BgfgEff.waitFg 0] := by decide
  rw [h] at hs
  simp at hs

/-! ## The reaper (`sigchld_handler`, lines 338-354) -/

/-- One child event as reported by `waitpid(-1, &status, WNOHANG|WUNTRACED)`:
the three cases the handler distinguishes via WIFEXITED / WIFSIGNALED /
WIFSTOPPED. -/
inductive ChildEvent
  | exited (code : Int)
  | signaled (sig : Int)
  | stopped (sig : Int)
deriving DecidableEq, Repr

/-- The body of the reaper's while loop for one reported (pid, status):
exit or death by signal → `deletejob`; stop → set the matching job's state to
ST and print the stop line.  Returns the new table and the printed lines. -/
def processEvent (t : JobTable) (p : Int) (ev : ChildEvent) :
    JobTable × List String :=
  match ev with
  | ChildEvent.exited _ => ((deletejob t p).1, [])
  | ChildEvent.signaled _ => ((deletejob t p).1, [])
  | ChildEvent.stopped n =>
    match getjobpid t p with
    | some k =>
      match t.get? k with
      | some jb =>
        (t.set k { jb with state := JState.st },
         ["Job [" ++ toString jb.jid ++ "] (" ++ toString jb.pid ++
          ") stopped by signal " ++ toString n])
      | none => (t, [])
    | none => (t, [])

/-- `sigchld_handler` (lines 338-354): the loop runs until `waitpid` has no
more events pending; `evs` is the list of pending events, in delivery order,
processed without blocking (WNOHANG). -/
def sigchld_handler (t : JobTable) (evs : List (Int × ChildEvent)) :
    JobTable × List String :=
  evs.foldl
    (fun acc pe =>
      let r := processEvent acc.1 pe.1 pe.2
      (r.1, acc.2 ++ r.2))
    (t, [])

/-- C4.  For every child event the reaper processes (pid ≥ 1, as returned by
waitpid): a normal-exit or killed-by-signal event deletes the (first, hence
with unique live pgids: the) job whose pgid equals the reported pid, and
leaves the table unchanged when no job has that pgid (non-leader pids); a
stop event sets the matching job's state to Stopped and prints
"Job [jid] (pgid) stopped by signal n", and does nothing when no job
matches; the handler folds over all pending events without blocking. -/
theorem c4_reaper_events (t : JobTable) (p code sg n : Int) (hp : 1 ≤ p) :
    (∀ i (hi : i < t.length), getjobpid t p = some i →
      processEvent t p (ChildEvent.exited code) = (t.set i clearedJob, []) ∧
      processEvent t p (ChildEvent.signaled sg) = (t.set i clearedJob, [])) ∧
    (getjobpid t p = none →
      processEvent t p (ChildEvent.exited code) = (t, []) ∧
      processEvent t p (ChildEvent.signaled sg) = (t, []) ∧
      processEvent t p (ChildEvent.stopped n) = (t, [])) ∧
    (∀ i (hi : i < t.length), getjobpid t p = some i →
      processEvent t p (ChildEvent.stopped n) =
        (t.set i { t.get ⟨i, hi⟩ with state := JState.st },
         ["Job [" ++ toString (t.get ⟨i, hi⟩).jid ++ "] (" ++
          toString (t.get ⟨i, hi⟩).pid ++ ") stopped by signal " ++
          toString n])) ∧
    (∀ evs, sigchld_handler t evs =
      evs.foldl
        (fun acc pe =>
          let r := processEvent acc.1 pe.1 pe.2
          (r.1, acc.2 ++ r.2))
        (t, [])) := by
  have hnl : ¬ p < 1 := by omega
  refine ⟨?_, ?_, ?_, fun evs => rfl⟩
  · intro i hi hfind
    have hdel : deletejob t p = (t.set i clearedJob, true) := by
      simp [deletejob, hnl, getjobpid] at hfind ⊢
      simp [hfind]
    constructor
    · simp [processEvent, hdel]
    · simp [processEvent, hdel]
  · intro hfind
    have hdel : deletejob t p = (t, false) := by
      simp [deletejob, hnl, getjobpid] at hfind ⊢
      simp [hfind]
    refine ⟨by simp [processEvent, hdel], by simp [processEvent, hdel], ?_⟩
    simp [processEvent, hfind]
  · intro i hi hfind
    have hget : t[i]? = some (t.get ⟨i, hi⟩) := by
      rw [List.getElem?_eq_getElem hi]
      simp [List.get_eq_getElem]
    simp [processEvent, hfind, hget, List.get_eq_getElem]

theorem c4_reaper_events_witness :
    processEvent (initjobs.set 0 ⟨7, 1, JState.bg, "sleep 30 &"⟩) 7
        (ChildEvent.exited 0) =
      ((initjobs.set 0 ⟨7, 1, JState.bg, "sleep 30 &"⟩).set 0 clearedJob, []) ∧
    processEvent (initjobs.set 0 ⟨7, 1, JState.bg, "sleep 30 &"⟩) 7
        (ChildEvent.stopped 20) =
      ((initjobs.set 0 ⟨7, 1, JState.bg, "sleep 30 &"⟩).set 0
          ⟨7, 1, JState.st, "sleep 30 &"⟩,
       ["Job [1] (7) stopped by signal 20"]) ∧
    processEvent (initjobs.set 0 ⟨7, 1, JState.bg, "sleep 30 &"⟩) 9
        (ChildEvent.exited 0) =
      (initjobs.set 0 ⟨7, 1, JState.bg, "sleep 30 &"⟩, []) := by
  have h := c4_reaper_events (initjobs.set 0 ⟨7, 1, JState.bg, "sleep 30 &"⟩)
    7 0 0 20 (by decide)
  have h9 := c4_reaper_events (initjobs.set 0 ⟨7, 1, JState.bg, "sleep 30 &"⟩)
    9 0 0 20 (by decide)
  refine ⟨(h.1 0 (by decide) (by decide)).1, ?_, (h9.2.1 (by decide)).1⟩
  have hs := h.2.2.1 0 (by decide) (by decide)
  simpa using hs

/-! ## The Foreground Controller (`waitfg`, lines 299-308) -/

/-- Terminal-control calls the shell can make: `tcsetpgrp` and `tcsetattr`.
Line-discipline settings are abstracted to an `Int` snapshot. -/
inductive TermAct
  | setFgGrp (g : Int)
  | setAttr (m : Int)
deriving DecidableEq, Repr

/-- The controlling terminal's observable state: foreground process group and
current line-discipline settings. -/
structure TermState where
  fgGrp : Int
  modes : Int
deriving DecidableEq, Repr

def applyAct (ts : TermState) : TermAct → TermState
  | TermAct.setFgGrp g => { ts with fgGrp := g }
  | TermAct.setAttr m => { ts with modes := m }

/-- The `while (job != NULL && job->pid == pid && job->state == FG)` loop of
`waitfg`: `obs` is the sequence of values the captured slot holds at the
successive checks; `true` when some check fails (the loop exits). -/
def wfgLoop (pid : Int) : List Job → Bool
  | [] => false
  | j :: rest =>
    if j.pid = pid ∧ j.state = JState.fg then wfgLoop pid rest else true

/-- `waitfg` (lines 299-308): `tcsetpgrp(shell_terminal, pid)`, capture
`getjobpid(jobs, pid)` once, spin while the captured slot stays (pid, FG),
then `tcsetpgrp(shell_terminal, shell_pgid)`.  `captured` is the slot value
at capture (`none` when getjobpid returned NULL), `obs` its values at the
later loop checks (the reaper may rewrite the slot between sleeps).  Returns
the terminal actions performed when the loop exits within `obs`, and `none`
when waitfg has not returned yet.  Note the body performs no `tcsetattr`:
tinyshell_final.c never calls tcsetattr anywhere. -/
def waitfgRun (shellPgid pid : Int) (captured : Option Job) (obs : List Job) :
    Option (List TermAct) :=
  let exits := match captured with
    | none => true
    | some j0 => wfgLoop pid (j0 :: obs)
  if exits then some [TermAct.setFgGrp pid, TermAct.setFgGrp shellPgid]
  else none

/-- C3 (counterexample).  The claim also asserts that the saved terminal
modes are restored on return, but `waitfg` performs no `tcsetattr` call: in a
run where the current modes (7) differ from the ones saved at bootstrap (3),
the terminal still holds modes 7 after waitfg returns, not 3. -/
theorem c3_modes_not_restored :
    (waitfgRun 100 42 none []).map
        (fun acts => acts.foldl applyAct ⟨42, 7⟩) =
      some ⟨100, 7⟩ ∧
    ((7 : Int) = 3) = False := by
  constructor
  · decide
  · decide

/-- C3 (amended).  Whenever the Foreground Controller returns, the
controlling terminal's foreground process group has been set back to the
shell's pgid; the line-discipline settings are untouched (no `tcsetattr` is
ever issued), so they are NOT restored to the bootstrap snapshot. -/
theorem c3_fg_group_restored (shellPgid pid : Int) (captured : Option Job)
    (obs : List Job) (acts : List TermAct) (ts : TermState)
    (h : waitfgRun shellPgid pid captured obs = some acts) :
    (acts.foldl applyAct ts).fgGrp = shellPgid ∧
    (acts.foldl applyAct ts).modes = ts.modes ∧
    ∀ m, TermAct.setAttr m ∉ acts := by
  have hacts : acts = [TermAct.setFgGrp pid, TermAct.setFgGrp shellPgid] := by
    cases captured with
    | none =>
      simp [waitfgRun] at h
      exact h.symm
    | some j0 =>
      by_cases hex : wfgLoop pid (j0 :: obs) = true
      · simp [waitfgRun, hex] at h
        exact h.symm
      · simp [waitfgRun, hex] at h
  subst hacts
  refine ⟨rfl, rfl, ?_⟩
  intro m hm
  simp [List.mem_cons] at hm

theorem c3_fg_group_restored_witness :
    (([TermAct.setFgGrp 42,
       TermAct.setFgGrp 100].foldl applyAct ⟨42, 7⟩).fgGrp = 100 ∧
     ([TermAct.setFgGrp 42,
       TermAct.setFgGrp 100].foldl applyAct ⟨42, 7⟩).modes = (7 : Int) ∧
     ∀ m, TermAct.setAttr m ∉ [TermAct.setFgGrp 42, TermAct.setFgGrp 100]) := by
  have h := c3_fg_group_restored 100 42 none []
    [TermAct.setFgGrp 42, TermAct.setFgGrp 100] ⟨42, 7⟩ (by decide)
  exact h

/-! ## Stage tokenization (`parse_and_execute_stage`, lines 242-252) -/

/-- The strtok delimiters " \t\r\n" used at lines 124 and 247. -/
def isWsDelim (c : Char) : Bool :=
  c = ' ' ∨ c = '\t' ∨ c = '\r' ∨ c = '\n'

/-- strtok over a character list: splits at delimiter runs, yields the
non-empty tokens in order (`cur` is the token being accumulated, reversed). -/
def tokRun : List Char → List Char → List (List Char)
  | [], cur => if cur.isEmpty then [] else [cur.reverse]
  | c :: cs, cur =>
    if isWsDelim c then
      if cur.isEmpty then tokRun cs [] else cur.reverse :: tokRun cs []
    else tokRun cs (c :: cur)

/-- All whitespace-delimited words of a stage segment, in order. -/
def tokenizeWs (s : String) : List String :=
  (tokRun s.data []).map (fun l => String.mk l)

/-- The token-storing loop of `parse_and_execute_stage` (lines 247-252):
`while (token && i < MAX_ARGS - 1) args[i++] = token;` keeps only the first
MAX_ARGS - 1 = 63 tokens (one slot is reserved for the NULL terminator). -/
def stageArgv (toks : List String) : List String :=
  toks.take (MAX_ARGS - 1)

/-- The argv a stage passes to program lookup, from the raw stage segment. -/
def parseStageWords (seg : String) : List String :=
  stageArgv (tokenizeWs seg)

/-- The 64-word stage used as the C9 counterexample: words "w0" .. "w63". -/
def sixtyFourWordStage : String :=
  String.intercalate " " ((List.range 64).map (fun k => "w" ++ toString k))

set_option maxRecDepth 8192 in
/-- C9 (counterexample).  A stage of exactly 64 whitespace-delimited words is
NOT parsed in full: the stage tokenizer stops at MAX_ARGS - 1 = 63 words, so
the 64th word ("w63") does not appear in the argv passed to program lookup. -/
theorem c9_sixty_fourth_word_dropped :
    (tokenizeWs sixtyFourWordStage).length = 64 ∧
    "w63" ∈ tokenizeWs sixtyFourWordStage ∧
    (parseStageWords sixtyFourWordStage).length = 63 ∧
    "w63" ∉ parseStageWords sixtyFourWordStage := by
  refine ⟨by decide, by decide, by decide, by decide⟩

/-- C9 (amended).  Each pipeline stage accepts up to MAX_ARGS - 1 = 63
whitespace-delimited words: a stage of at most 63 words is parsed in full and
every word appears, in order, in the argv passed to program lookup (the
64-entry args array reserves one slot for the NULL terminator, so a 64th
word is dropped). -/
theorem c9_stage_word_limit (toks : List String)
    (h : toks.length ≤ MAX_ARGS - 1) :
    stageArgv toks = toks := by
  exact List.take_of_length_le h

theorem c9_stage_word_limit_witness :
    stageArgv ["ls", "-l", "/tmp"] = ["ls", "-l", "/tmp"] := by
  exact c9_stage_word_limit ["ls", "-l", "/tmp"] (by decide)

/-! ## Pipeline launch error paths (`process_pipeline`, lines 152-237) -/

/-- File descriptors the shell can hold during a launch: its standard input
and the read/write ends of the pipe created before stage `i`. -/
inductive Fd
  | stdin
  | pr (i : Nat)
  | pw (i : Nat)
deriving DecidableEq, Repr

/-- Result of the fork loop: either an error `return` (perror + plain
`return;`, lines 187 and 191) or completion of all stages. -/
inductive LoopOut
  | aborted (openFds : List Fd) (diag : String)
  | finished (openFds : List Fd) (leader : Int)
deriving DecidableEq, Repr

/-- The `for (i = 0; i < cmd_count; i++)` launch loop (lines 185-227),
parent's side only.  `pipeOk i` tells whether `pipe()` succeeds at stage `i`,
`forkRes i` is `fork()`'s result (`none` = failure, `some pid` = child pid in
the parent).  `stages` enumerates the remaining `i` values, `fds` the pipe
ends the shell currently holds open. -/
def ppLoop (cmdCount : Nat) (pipeOk : Nat → Bool) (forkRes : Nat → Option Int) :
    List Nat → Fd → List Fd → Int → LoopOut
  | [], _, fds, leader => LoopOut.finished fds leader
  | i :: rest, prevRead, fds, leader =>
    let piped : Option (List Fd) :=
      if i < cmdCount - 1 then
        if pipeOk i then some (fds ++ [Fd.pr i, Fd.pw i]) else none
      else some fds
    match piped with
    | none => LoopOut.aborted fds ("pipe")
    | some fds1 =>
      match forkRes i with
      | none => LoopOut.aborted fds1 ("fork")
      | some cpid =>
        let leader1 := if i = 0 then cpid else leader
        let fds2 := if prevRead ≠ Fd.stdin then fds1.erase prevRead else fds1
        if i < cmdCount - 1 then
          ppLoop cmdCount pipeOk forkRes rest (Fd.pr i) (fds2.erase (Fd.pw i)) leader1
        else
          ppLoop cmdCount pipeOk forkRes rest prevRead fds2 leader1

/-- What `process_pipeline` leaves behind: whether SIGCHLD is still blocked
when it returns, which pipe fds the shell still holds open, whether the
success path (addjob + unblock) was reached, and the job table / next_jid
afterwards. -/
structure PPOut where
  blocked : Bool
  openFds : List Fd
  completed : Bool
  table : JobTable
  nextJid : Int
deriving DecidableEq, Repr

/-- `process_pipeline` (lines 152-237) after command splitting: blocks
SIGCHLD (line 183), runs the launch loop, and only on the non-error path
reaches `addjob` (line 229) and the mask restore (line 230).  The two error
`return`s skip both: the shell comes back to the prompt with SIGCHLD still
blocked and the listed pipe ends still open. -/
def process_pipeline (pipeOk : Nat → Bool) (forkRes : Nat → Option Int)
    (cmdCount : Nat) (t : JobTable) (n : Int) (bg : Bool) (cmdline : String) :
    PPOut :=
  match ppLoop cmdCount pipeOk forkRes (List.range cmdCount) Fd.stdin [] 0 with
  | LoopOut.aborted fds _ =>
    { blocked := true, openFds := fds, completed := false, table := t, nextJid := n }
  | LoopOut.finished fds leader =>
    let a := addjob t n leader (if bg then JState.bg else JState.fg) cmdline
    { blocked := false, openFds := fds, completed := true,
      table := a.1, nextJid := a.2.1 }

/-- C2 (code_bug evidence).  When fork fails at stage 0 of a two-stage
pipeline (after its pipe was created), process_pipeline returns with SIGCHLD
STILL BLOCKED — the `sigprocmask(SIG_SETMASK, &prev, ...)` at line 230 is
skipped by the early `return` at line 191 — and with both ends of the
stage-0 pipe still open; the same early return (line 187) follows a pipe
failure.  The claim (and spec sections 4.3b/7) instead require the owned pipe
ends closed and child-state-change delivery restored.  The job table itself
is indeed left unchanged. -/
theorem c2_abort_leaves_mask_blocked :
    process_pipeline (fun _ => true) (fun _ => none) 2 initjobs 1 false "a | b" =
      { blocked := true, openFds := [Fd.pr 0, Fd.pw 0], completed := false,
        table := initjobs, nextJid := 1 } ∧
    process_pipeline (fun _ => false) (fun _ => none) 2 initjobs 1 false "a | b" =
      { blocked := true, openFds := [], completed := false,
        table := initjobs, nextJid := 1 } ∧
    (process_pipeline (fun _ => true) (fun _ => none) 2 initjobs 1 false
        "a | b").blocked ≠ false ∧
    (process_pipeline (fun _ => true) (fun _ => none) 2 initjobs 1 false
        "a | b").openFds ≠ [] := by
  refine ⟨by decide, by decide, by decide, by decide⟩

/-! ## Redirections (`handle_redirections`, lines 267-295, and the stage
wiring in `parse_and_execute_stage`, lines 242-265) -/

/-- One `open(2)` call: path, flag bits actually passed by the source
(O_WRONLY, O_CREAT, O_TRUNC, O_APPEND) and the mode argument. -/
structure OpenCall where
  path : String
  wronly : Bool
  creat : Bool
  trunc : Bool
  append : Bool
  mode : Nat
deriving DecidableEq, Repr

/-- `open(args[i+1], O_RDONLY)` (line 273). -/
def callIn (f : String) : OpenCall := ⟨f, false, false, false, false, 0⟩

/-- `open(args[i+1], O_WRONLY | O_CREAT | O_TRUNC, 0644)` (line 278). -/
def callTrunc (f : String) : OpenCall := ⟨f, true, true, true, false, 0o644⟩

/-- `open(args[i+1], O_WRONLY | O_CREAT | O_APPEND, 0644)` (line 283). -/
def callApp (f : String) : OpenCall := ⟨f, true, true, false, true, 0o644⟩

/-- Outcome of `handle_redirections`: C's return value (`ok`), the argument
list after the in-place shifts, the final *in_fd / *out_fd, the open calls
issued in order, and the perror diagnostics printed. -/
structure HRRes where
  ok : Bool
  args : List String
  inFd : Option Int
  outFd : Option Int
  calls : List OpenCall
  msgs : List String
deriving DecidableEq, Repr

/-- `handle_redirections` (lines 267-295).  The C loop either advances one
word (`i++`) or consumes an operator together with the following filename
(the two-slot shift re-examines the same index, i.e. continues with the rest
of the list).  `o` is the OS: the fd `open` returns, `none` for failure. -/
def handle_redirections (o : OpenCall → Option Int) :
    List String → Option Int → Option Int → HRRes
  | [], inF, outF => ⟨true, [], inF, outF, [], []⟩
  | a :: rest, inF, outF =>
    if a = "<" then
      match rest with
      | [] => ⟨false, [], inF, outF, [], []⟩
      | f :: rest2 =>
        match o (callIn f) with
        | none => ⟨false, [], inF, outF, [callIn f], ["open <"]⟩
        | some fd =>
          let r := handle_redirections o rest2 (some fd) outF
          { r with calls := callIn f :: r.calls }
    else if a = ">" then
      match rest with
      | [] => ⟨false, [], inF, outF, [], []⟩
      | f :: rest2 =>
        match o (callTrunc f) with
        | none => ⟨false, [], inF, outF, [callTrunc f], ["open >"]⟩
        | some fd =>
          let r := handle_redirections o rest2 inF (some fd)
          { r with calls := callTrunc f :: r.calls }
    else if a = ">>" then
      match rest with
      | [] => ⟨false, [], inF, outF, [], []⟩
      | f :: rest2 =>
        match o (callApp f) with
        | none => ⟨false, [], inF, outF, [callApp f], ["open >>"]⟩
        | some fd =>
          let r := handle_redirections o rest2 inF (some fd)
          { r with calls := callApp f :: r.calls }
    else
      let r := handle_redirections o rest inF outF
      { r with args := a :: r.args }

/-- Where a stage stream ends up connected. -/
inductive Stream
  | inherited
  | pipeIn (i : Nat)
  | pipeOut (i : Nat)
  | file (fd : Int)
deriving DecidableEq, Repr

/-- A stage's fate: `exit code` before exec, or exec with the given argv and
final standard stream wiring. -/
inductive StageOut
  | exit (code : Int)
  | exec (argv : List String) (stdinS stdoutS : Stream)
deriving DecidableEq, Repr

/-- `parse_and_execute_stage` (lines 242-265) as run in the forked child.
`pin` / `pout` tell whether process_pipeline's child code already dup2'ed a
pipe end over stdin / stdout (lines 203-212) BEFORE this function runs; the
redirection dup2s (lines 258-259) happen after, so a redirection overrides
the pipe on its side.  Empty stage → exit 0 (line 254); failed
handle_redirections → exit 1 (line 256). -/
def parse_and_execute_stage (o : OpenCall → Option Int)
    (pin pout : Option Nat) (seg : String) : StageOut :=
  let args := parseStageWords seg
  if args.isEmpty then StageOut.exit 0
  else
    let r := handle_redirections o args none none
    if r.ok = false then StageOut.exit 1
    else
      let s0 : Stream := match pin with
        | some i => Stream.pipeIn i
        | none => Stream.inherited
      let s1 : Stream := match pout with
        | some i => Stream.pipeOut i
        | none => Stream.inherited
      StageOut.exec r.args
        (match r.inFd with | some fd => Stream.file fd | none => s0)
        (match r.outFd with | some fd => Stream.file fd | none => s1)

/-- Refinement comparator, following the spec's words (section 4.3):
"Redirection tokens and their filenames are removed from the word list
before exec". -/
def specRemoveRedirTokens : List String → List String
  | [] => []
  | a :: rest =>
    if a = "<" ∨ a = ">" ∨ a = ">>" then
      match rest with
      | [] => []
      | _ :: rest2 => specRemoveRedirTokens rest2
    else a :: specRemoveRedirTokens rest

/-- Refinement comparator, following the spec's words (section 6, file
creation modes): the open calls a stage's redirections should issue. -/
def specOpenCalls : List String → List OpenCall
  | [] => []
  | a :: rest =>
    if a = "<" ∨ a = ">" ∨ a = ">>" then
      match rest with
      | [] => []
      | f :: rest2 =>
        (if a = "<" then callIn f else if a = ">" then callTrunc f else callApp f)
          :: specOpenCalls rest2
    else specOpenCalls rest

theorem handle_redirections_spec (o : OpenCall → Option Int) :
    ∀ (ws : List String) (inF outF : Option Int),
      (handle_redirections o ws inF outF).ok = true →
      (handle_redirections o ws inF outF).args = specRemoveRedirTokens ws ∧
      (handle_redirections o ws inF outF).calls = specOpenCalls ws := by
  have H : ∀ (n : Nat) (ws : List String), ws.length ≤ n →
      ∀ (inF outF : Option Int),
      (handle_redirections o ws inF outF).ok = true →
      (handle_redirections o ws inF outF).args = specRemoveRedirTokens ws ∧
      (handle_redirections o ws inF outF).calls = specOpenCalls ws := by
    intro n
    induction n with
    | zero =>
      intro ws hlen inF outF _
      have : ws = [] := List.length_eq_zero.mp (Nat.le_zero.mp hlen)
      subst this
      simp [handle_redirections, specRemoveRedirTokens, specOpenCalls]
    | succ n ih =>
      intro ws hlen inF outF hok
      match ws with
      | [] => simp [handle_redirections, specRemoveRedirTokens, specOpenCalls]
      | a :: rest =>
        by_cases hin : a = "<"
        · subst hin
          match rest with
          | [] => simp [handle_redirections] at hok
          | f :: rest2 =>
            cases ho : o (callIn f) with
            | none => simp [handle_redirections, ho] at hok
            | some fd =>
              have hok2 : (handle_redirections o rest2 (some fd) outF).ok = true := by
                simpa [handle_redirections, ho] using hok
              have hrec := ih rest2 (by simp at hlen; omega) (some fd) outF hok2
              simp [handle_redirections, ho, specRemoveRedirTokens, specOpenCalls,
                hrec.1, hrec.2]
        · by_cases htr : a = ">"
          · subst htr
            match rest with
            | [] => simp [handle_redirections] at hok
            | f :: rest2 =>
              cases ho : o (callTrunc f) with
              | none => simp [handle_redirections, ho] at hok
              | some fd =>
                have hok2 : (handle_redirections o rest2 inF (some fd)).ok = true := by
                  simpa [handle_redirections, ho] using hok
                have hrec := ih rest2 (by simp at hlen; omega) inF (some fd) hok2
                simp [handle_redirections, ho, specRemoveRedirTokens, specOpenCalls,
                  hrec.1, hrec.2]
          · by_cases hap : a = ">>"
            · subst hap
              match rest with
              | [] => simp [handle_redirections] at hok
              | f :: rest2 =>
                cases ho : o (callApp f) with
                | none => simp [handle_redirections, ho] at hok
                | some fd =>
                  have hok2 : (handle_redirections o rest2 inF (some fd)).ok = true := by
                    simpa [handle_redirections, ho] using hok
                  have hrec := ih rest2 (by simp at hlen; omega) inF (some fd) hok2
                  simp [handle_redirections, ho, specRemoveRedirTokens, specOpenCalls,
                    hrec.1, hrec.2]
            · have hstep : handle_redirections o (a :: rest) inF outF =
                  { handle_redirections o rest inF outF with
                    args := a :: (handle_redirections o rest inF outF).args } := by
                rw [handle_redirections.eq_def]
                simp [hin, htr, hap]
              have hok2 : (handle_redirections o rest inF outF).ok = true := by
                rw [hstep] at hok
                exact hok
              have hrec := ih rest (by simp at hlen; omega) inF outF hok2
              have hs1 : specRemoveRedirTokens (a :: rest) =
                  a :: specRemoveRedirTokens rest := by
                rw [specRemoveRedirTokens.eq_def]
                simp [hin, htr, hap]
              have hs2 : specOpenCalls (a :: rest) = specOpenCalls rest := by
                rw [specOpenCalls.eq_def]
                simp [hin, htr, hap]
              rw [hstep]
              simp [hs1, hs2, hrec.1, hrec.2]
  intro ws inF outF hok
  exact H ws.length ws (Nat.le_refl _) inF outF hok

/-- C8.  For every stage: (a) when handle_redirections succeeds, the argv
passed to exec is the word list with the redirection tokens and their
filenames removed, and the open calls are exactly those the spec prescribes
— `>` with O_WRONLY|O_CREAT|O_TRUNC, `>>` with O_WRONLY|O_CREAT|O_APPEND,
both mode 0644, `<` read-only (conjuncts 1-2); (b) a `<` whose file cannot
be opened prints a diagnostic and the stage exits with status 1 (conjuncts
3-4); (c) redirections are applied after pipe wiring, so an input or output
redirection overrides the pipe on that side (conjuncts 5-6). -/
theorem c8_stage_redirections (o : OpenCall → Option Int) :
    (∀ (ws : List String) (inF outF : Option Int),
      (handle_redirections o ws inF outF).ok = true →
      (handle_redirections o ws inF outF).args = specRemoveRedirTokens ws ∧
      (handle_redirections o ws inF outF).calls = specOpenCalls ws) ∧
    (∀ f, callTrunc f = ⟨f, true, true, true, false, 0o644⟩ ∧
          callApp f = ⟨f, true, true, false, true, 0o644⟩ ∧
          callIn f = ⟨f, false, false, false, false, 0⟩) ∧
    (∀ (f : String) (rest : List String) (inF outF : Option Int),
      o (callIn f) = none →
      (handle_redirections o ("<" :: f :: rest) inF outF).ok = false ∧
      (handle_redirections o ("<" :: f :: rest) inF outF).msgs = ["open <"]) ∧
    (∀ (seg : String) (pin pout : Option Nat),
      (parseStageWords seg).isEmpty = false →
      (handle_redirections o (parseStageWords seg) none none).ok = false →
      parse_and_execute_stage o pin pout seg = StageOut.exit 1) ∧
    (∀ (seg : String) (pin pout : Option Nat) (fd : Int),
      (parseStageWords seg).isEmpty = false →
      (handle_redirections o (parseStageWords seg) none none).ok = true →
      (handle_redirections o (parseStageWords seg) none none).inFd = some fd →
      ∃ outS, parse_and_execute_stage o pin pout seg =
        StageOut.exec (handle_redirections o (parseStageWords seg) none none).args
          (Stream.file fd) outS) ∧
    (∀ (seg : String) (pin pout : Option Nat) (fd : Int),
      (parseStageWords seg).isEmpty = false →
      (handle_redirections o (parseStageWords seg) none none).ok = true →
      (handle_redirections o (parseStageWords seg) none none).outFd = some fd →
      ∃ inS, parse_and_execute_stage o pin pout seg =
        StageOut.exec (handle_redirections o (parseStageWords seg) none none).args
          inS (Stream.file fd)) := by
  refine ⟨handle_redirections_spec o, ?_, ?_, ?_, ?_, ?_⟩
  · intro f
    exact ⟨rfl, rfl, rfl⟩
  · intro f rest inF outF ho
    constructor
    · simp [handle_redirections, ho]
    · simp [handle_redirections, ho]
  · intro seg pin pout hne hfail
    simp [parse_and_execute_stage, hne, hfail]
  · intro seg pin pout fd hne hok hin
    refine ⟨(match (handle_redirections o (parseStageWords seg) none none).outFd with
      | some fd2 => Stream.file fd2
      | none => match pout with
        | some i => Stream.pipeOut i
        | none => Stream.inherited), ?_⟩
    simp [parse_and_execute_stage, hne, hok, hin]
  · intro seg pin pout fd hne hok hout
    refine ⟨(match (handle_redirections o (parseStageWords seg) none none).inFd with
      | some fd2 => Stream.file fd2
      | none => match pin with
        | some i => Stream.pipeIn i
        | none => Stream.inherited), ?_⟩
    simp [parse_and_execute_stage, hne, hok, hout]

theorem c8_stage_redirections_witness :
    ((handle_redirections (fun c => if c.path = "in" then some 3 else some 4)
        ["cat", "<", "in", ">", "out"] none none).args = ["cat"] ∧
     (handle_redirections (fun c => if c.path = "in" then some 3 else some 4)
        ["cat", "<", "in", ">", "out"] none none).calls =
       [callIn "in", callTrunc "out"] ∧
     (handle_redirections (fun _ => none) ["<", "missing"] none none).ok = false ∧
     (handle_redirections (fun _ => none) ["<", "missing"] none none).msgs =
       ["open <"] ∧
     (∃ outS, parse_and_execute_stage
        (fun c => if c.path = "in" then some 3 else some 4)
        (some 0) none "cat < in > out" =
        StageOut.exec ["cat"] (Stream.file 3) outS)) := by
  have h1 := (c8_stage_redirections
    (fun c => if c.path = "in" then some 3 else some 4)).1
    ["cat", "<", "in", ">", "out"] none none (by decide)
  have h3 := (c8_stage_redirections (fun _ => none)).2.2.1
    "missing" [] none none (by decide)
  have h5 := (c8_stage_redirections
    (fun c => if c.path = "in" then some 3 else some 4)).2.2.2.2.1
    "cat < in > out" (some 0) none 3 (by decide) (by decide) (by decide)
  refine ⟨?_, ?_, h3.1, h3.2, ?_⟩
  · rw [h1.1]; decide
  · rw [h1.2]; decide
  · obtain ⟨outS, hS⟩ := h5
    refine ⟨outS, ?_⟩
    rw [hS]
    have hargs : (handle_redirections
        (fun c => if c.path = "in" then some 3 else some 4)
        (parseStageWords "cat < in > out") none none).args = ["cat"] := by decide
    rw [hargs]

/-! ## The shell as a transition system (for the reachable-state invariants
C6 and C7).

The shell is a single thread whose only asynchrony is the SIGCHLD handler;
a state records the job table, the `next_jid` counter and where the main
flow stands (`Phase`).  Transitions are exactly the table-mutating actions
of the source, at the granularity at which the handler can interleave
(between any two C statements of the main flow); reaper transitions are
allowed in every phase (an over-approximation where SIGCHLD is blocked,
which is sound for the safety invariants proved below). -/

/-- Where the main control flow stands.
`prompt`: at the top of the read loop (line 98).
`fgEntered i`: do_bgfg just executed `job->state = FG` on slot `i`
(line 333) and has not yet read `job->pid` for the `waitfg` call (line 334).
`preWait p`: about to execute `getjobpid(jobs, pid)` inside `waitfg`
(line 302), with the pid argument already evaluated.
`waiting j p`: inside waitfg's sleep loop (lines 303-305) with the slot
pointer captured as `j`. -/
inductive Phase
  | prompt
  | fgEntered (i : Nat)
  | preWait (p : Int)
  | waiting (j : Option Nat) (p : Int)
deriving DecidableEq, Repr

/-- The whole mutable shell state the claims are about. -/
structure Shell where
  table : JobTable
  nextJid : Int
  phase : Phase
deriving DecidableEq, Repr

/-- `job->state = st` through a slot pointer: set the state of slot `i`,
identity when the index is out of range (never happens in the system). -/
def setStateAt (t : JobTable) (i : Nat) (jst : JState) : JobTable :=
  match t.get? i with
  | some jb => t.set i { jb with state := jst }
  | none => t

/-- The reaper's WIFSTOPPED branch (lines 346-352): look the pid up, set the
job's state to ST when found. -/
def applyStop (t : JobTable) (p : Int) : JobTable :=
  match getjobpid t p with
  | some k => setStateAt t k JState.st
  | none => t

/-- do_bgfg's argument resolution (lines 317-325): `%jid` via getjobjid,
otherwise a decimal pid via getjobpid. -/
def resolveSpec (t : JobTable) (id : String) : Option Nat :=
  match id.data with
  | '%' :: rest => getjobjid t (atoiCore rest)
  | _ => getjobpid t (atoiC id)

/-- The condition of waitfg's spin loop (line 303), re-read through the
captured slot pointer `j` against the current table. -/
def WaitLoopCond (t : JobTable) (j : Option Nat) (p : Int) : Prop :=
  ∃ k, j = some k ∧ ∃ jb, t.get? k = some jb ∧
    jb.pid = p ∧ jb.state = JState.fg

/-- One transition of the shell.  Launch transitions carry the kernel's
guarantee that a fork'ed leader pid is fresh: every nonzero pid in the table
belongs to a live-or-zombie process group whose id the kernel cannot hand
out again (`p = 0` is the degenerate no-stage launch, where addjob no-ops).
The error returns of process_pipeline, failed resolutions in do_bgfg, and
the `jobs` builtin do not touch the table and need no transition. -/
inductive Step : Shell → Shell → Prop
  /-- Background launch (lines 185-230, 235): fork loop + addjob BG, back to
  the prompt. -/
  | launchBG (s : Shell) (p : Int) (cmd : String)
      (hph : s.phase = Phase.prompt)
      (hp : p = 0 ∨ (1 ≤ p ∧ ∀ jb ∈ s.table, jb.pid ≠ p)) :
      Step s { table := (addjob s.table s.nextJid p JState.bg cmd).1,
               nextJid := (addjob s.table s.nextJid p JState.bg cmd).2.1,
               phase := Phase.prompt }
  /-- Foreground launch (lines 185-233): fork loop + addjob FG, then
  `waitfg(group_leader_pid)` with the pid held in a local. -/
  | launchFG (s : Shell) (p : Int) (cmd : String)
      (hph : s.phase = Phase.prompt)
      (hp : p = 0 ∨ (1 ≤ p ∧ ∀ jb ∈ s.table, jb.pid ≠ p)) :
      Step s { table := (addjob s.table s.nextJid p JState.fg cmd).1,
               nextJid := (addjob s.table s.nextJid p JState.fg cmd).2.1,
               phase := Phase.preWait p }
  /-- `bg` builtin on a resolved slot (lines 329-331): state := BG, print,
  back to the prompt. -/
  | bgBuiltin (s : Shell) (id : String) (i : Nat)
      (hph : s.phase = Phase.prompt)
      (hres : resolveSpec s.table id = some i) :
      Step s { s with table := setStateAt s.table i JState.bg }
  /-- `fg` builtin on a resolved slot (lines 332-333): state := FG. -/
  | fgBuiltin (s : Shell) (id : String) (i : Nat)
      (hph : s.phase = Phase.prompt)
      (hres : resolveSpec s.table id = some i) :
      Step s { s with
                 table := setStateAt s.table i JState.fg,
                 phase := Phase.fgEntered i }
  /-- do_bgfg reads `job->pid` as waitfg's argument (line 334). -/
  | fgReadPid (s : Shell) (i : Nat) (hi : i < s.table.length)
      (hph : s.phase = Phase.fgEntered i) :
      Step s { s with phase := Phase.preWait (s.table.get ⟨i, hi⟩).pid }
  /-- waitfg captures `getjobpid(jobs, pid)` once (line 302). -/
  | waitCapture (s : Shell) (p : Int)
      (hph : s.phase = Phase.preWait p) :
      Step s { s with phase := Phase.waiting (getjobpid s.table p) p }
  /-- waitfg's loop observes a failed condition and returns (lines 303-307),
  putting the main flow back at the prompt. -/
  | waitReturn (s : Shell) (j : Option Nat) (p : Int)
      (hph : s.phase = Phase.waiting j p)
      (hdone : ¬ WaitLoopCond s.table j p) :
      Step s { s with phase := Phase.prompt }
  /-- Reaper, WIFEXITED/WIFSIGNALED branch (lines 344-345); waitpid returns
  a positive pid. -/
  | reapDelete (s : Shell) (p : Int) (hp : 1 ≤ p) :
      Step s { s with table := (deletejob s.table p).1 }
  /-- Reaper, WIFSTOPPED branch (lines 346-352). -/
  | reapStop (s : Shell) (p : Int) (hp : 1 ≤ p) :
      Step s { s with table := applyStop s.table p }

/-- The state after bootstrap (lines 68-95): cleared table, next_jid = 1,
main flow at the prompt. -/
def initShell : Shell :=
  { table := initjobs, nextJid := 1, phase := Phase.prompt }

/-- Reachable shell states. -/
def Reachable (s : Shell) : Prop :=
  Relation.ReflTransGen Step initShell s

/-- A slot holding an actual foreground job: FG state and a real (nonzero)
pgid.  Slots with pid 0 are empty sentinels, not jobs (spec section 3). -/
def isLiveFg (jb : Job) : Prop := jb.state = JState.fg ∧ jb.pid ≠ 0

instance (jb : Job) : Decidable (isLiveFg jb) := by
  unfold isLiveFg
  infer_instance

/-- Pairwise uniqueness of a nonzero id field across the table. -/
def FieldUniq (f : Job → Int) (t : JobTable) : Prop :=
  ∀ i (hi : i < t.length), ∀ k (hk : k < t.length), i ≠ k →
    f (t.get ⟨i, hi⟩) ≠ 0 → f (t.get ⟨i, hi⟩) ≠ f (t.get ⟨k, hk⟩)

theorem get_set_self (t : JobTable) (i : Nat) (a : Job)
    (hi2 : i < (t.set i a).length) : (t.set i a).get ⟨i, hi2⟩ = a := by
  have hi : i < t.length := by simpa using hi2
  simp [List.get_eq_getElem, List.getElem_set]

theorem get_set_other (t : JobTable) (i k : Nat) (a : Job) (hne : i ≠ k)
    (hk : k < (t.set i a).length) :
    (t.set i a).get ⟨k, hk⟩ = t.get ⟨k, by simpa using hk⟩ := by
  simp [List.get_eq_getElem, List.getElem_set, hne]

theorem forall_mem_set {P : Job → Prop} (t : JobTable) (m : Nat) (a : Job)
    (h : ∀ jb ∈ t, P jb) (hpa : P a) : ∀ jb ∈ t.set m a, P jb := by
  intro jb hm
  rcases List.mem_or_eq_of_mem_set hm with h2 | h2
  · exact h jb h2
  · subst h2
    exact hpa

theorem fieldUniq_set (f : Job → Int) (t : JobTable) (m : Nat) (a : Job)
    (hU : FieldUniq f t)
    (ha : f a = 0 ∨ ∀ jb ∈ t, f jb ≠ f a) : FieldUniq f (t.set m a) := by
  intro i hi k hk hne hnz
  have hit : i < t.length := by simpa using hi
  have hkt : k < t.length := by simpa using hk
  by_cases him : i = m
  · subst him
    rw [get_set_self t i a hi] at hnz ⊢
    have hkm : i ≠ k := hne
    rw [get_set_other t i k a hkm hk]
    rcases ha with h0 | hfr
    · exact absurd h0 hnz
    · intro he
      exact hfr (t.get ⟨k, hkt⟩) (List.get_mem t k hkt) he.symm
  · rw [get_set_other t m i a (fun e => him e.symm) hi] at hnz ⊢
    by_cases hkm : k = m
    · subst hkm
      rw [get_set_self t k a hk]
      rcases ha with h0 | hfr
      · rw [h0]
        exact hnz
      · exact hfr (t.get ⟨i, hit⟩) (List.get_mem t i hit)
    · rw [get_set_other t m k a (fun e => hkm e.symm) hk]
      exact hU i hit k hkt hne hnz

theorem setStateAt_eq (t : JobTable) (i : Nat) (jst : JState)
    (hi : i < t.length) :
    setStateAt t i jst = t.set i { t.get ⟨i, hi⟩ with state := jst } := by
  have h : t.get? i = some (t.get ⟨i, hi⟩) := List.get?_eq_get hi
  rw [setStateAt, h]

theorem length_setStateAt (t : JobTable) (i : Nat) (jst : JState) :
    (setStateAt t i jst).length = t.length := by
  rw [setStateAt]
  cases h : t.get? i with
  | none => rfl
  | some jb => simp

theorem get_set_cases (t : JobTable) (m : Nat) (a : Job) (k : Nat)
    (hk : k < (t.set m a).length) :
    (k = m ∧ (t.set m a).get ⟨k, hk⟩ = a) ∨
    (k ≠ m ∧ (t.set m a).get ⟨k, hk⟩ = t.get ⟨k, by simpa using hk⟩) := by
  by_cases he : k = m
  · subst he
    exact Or.inl ⟨rfl, get_set_self t k a hk⟩
  · exact Or.inr ⟨he, get_set_other t m k a (fun e2 => he e2.symm) hk⟩

theorem fieldUniq_set_same (f : Job → Int) (t : JobTable) (m : Nat) (a : Job)
    (hm : m < t.length) (hU : FieldUniq f t)
    (ha : f a = f (t.get ⟨m, hm⟩)) : FieldUniq f (t.set m a) := by
  intro i hi k hk hne hnz
  have hit : i < t.length := by simpa using hi
  have hkt : k < t.length := by simpa using hk
  rcases get_set_cases t m a i hi with ⟨he, hv⟩ | ⟨he, hv⟩ <;>
    rcases get_set_cases t m a k hk with ⟨he2, hv2⟩ | ⟨he2, hv2⟩
  · exact absurd (he.trans he2.symm) hne
  · rw [hv, ha] at hnz ⊢
    rw [hv2]
    subst he
    exact hU i hm k hkt hne hnz
  · rw [hv] at hnz ⊢
    rw [hv2, ha]
    subst he2
    exact hU i hit k hm hne hnz
  · rw [hv] at hnz ⊢
    rw [hv2]
    exact hU i hit k hkt hne hnz

/-- When no live job is in FG state, i.e. every slot is empty or not
Running-Foreground. -/
def NoLiveFg (t : JobTable) : Prop :=
  ∀ k (hk : k < t.length), ¬ isLiveFg (t.get ⟨k, hk⟩)

/-- What each control position guarantees about live FG slots. -/
def PhaseInv (t : JobTable) : Phase → Prop
  | Phase.prompt => NoLiveFg t
  | Phase.fgEntered i => i < t.length ∧
      ∀ k (hk : k < t.length), isLiveFg (t.get ⟨k, hk⟩) → k = i
  | Phase.preWait p =>
      ∀ k (hk : k < t.length), isLiveFg (t.get ⟨k, hk⟩) →
        (t.get ⟨k, hk⟩).pid = p
  | Phase.waiting j p =>
      ∀ k (hk : k < t.length), isLiveFg (t.get ⟨k, hk⟩) →
        j = some k ∧ (t.get ⟨k, hk⟩).pid = p

/-- The inductive invariant of the shell: empty sentinels are consistent
(pid 0 iff jid 0), all jids are below the counter, the counter started at 1,
live pids and jids are unique, and the phase invariant holds. -/
structure Inv (s : Shell) : Prop where
  zeroIff : ∀ jb ∈ s.table, (jb.pid = 0 ↔ jb.jid = 0)
  jidLt : ∀ jb ∈ s.table, jb.jid < s.nextJid
  oneLe : 1 ≤ s.nextJid
  pidUniq : FieldUniq (fun jb => jb.pid) s.table
  jidUniq : FieldUniq (fun jb => jb.jid) s.table
  phaseInv : PhaseInv s.table s.phase

theorem inv_init : Inv initShell := by
  refine ⟨by decide, by decide, by decide, ?_, ?_, ?_⟩
  · show FieldUniq (fun jb => jb.pid) initjobs
    unfold FieldUniq
    decide
  · show FieldUniq (fun jb => jb.jid) initjobs
    unfold FieldUniq
    decide
  · show NoLiveFg initjobs
    unfold NoLiveFg
    decide

/-- Structural outcomes of `addjob`. -/
theorem addjob_cases (t : JobTable) (n p : Int) (jst : JState) (cmd : String) :
    (addjob t n p jst cmd = (t, n, false)) ∨
    ∃ m, ∃ hm : m < t.length, 1 ≤ p ∧ (t.get ⟨m, hm⟩).pid = 0 ∧
      addjob t n p jst cmd = (t.set m ⟨p, n, jst, cmd⟩, n + 1, true) := by
  by_cases h : p < 1
  · left
    simp [addjob, h]
  · cases hf : findSlot (fun jb => jb.pid = 0) t with
    | none =>
      left
      simp [addjob, h, hf]
    | some m =>
      obtain ⟨hm, hget, _⟩ := findSlot_some hf
      right
      refine ⟨m, hm, by omega, by simpa using hget, ?_⟩
      simp [addjob, h, hf]

/-- Structural outcomes of `deletejob`'s table. -/
theorem deletejob_table (t : JobTable) (p : Int) :
    (deletejob t p).1 = t ∨
    ∃ m, m < t.length ∧ (deletejob t p).1 = t.set m clearedJob := by
  by_cases h : p < 1
  · left
    simp [deletejob, h]
  · cases hf : findSlot (fun jb => jb.pid = p) t with
    | none =>
      left
      simp [deletejob, h, hf]
    | some m =>
      obtain ⟨hm, _⟩ := findSlot_some hf
      right
      exact ⟨m, hm, by simp [deletejob, h, hf]⟩

/-- Structural outcomes of `applyStop`'s table. -/
theorem applyStop_table (t : JobTable) (p : Int) :
    applyStop t p = t ∨
    ∃ m, ∃ hm : m < t.length,
      applyStop t p = t.set m { t.get ⟨m, hm⟩ with state := JState.st } := by
  cases hf : getjobpid t p with
  | none =>
    left
    simp [applyStop, hf]
  | some m =>
    obtain ⟨hm, _⟩ := findSlot_some hf
    right
    refine ⟨m, hm, ?_⟩
    simp [applyStop, hf]
    exact setStateAt_eq t m JState.st hm

/-- A table change that does not make any slot newly live-FG (every live-FG
slot of the new table held the same record before) carries every phase
invariant across. -/
theorem phaseInv_mono (t t2 : JobTable) (ph : Phase)
    (hlen : t2.length = t.length)
    (hmono : ∀ k (hk : k < t2.length), isLiveFg (t2.get ⟨k, hk⟩) →
      t2.get ⟨k, hk⟩ = t.get ⟨k, hlen ▸ hk⟩)
    (hpi : PhaseInv t ph) : PhaseInv t2 ph := by
  cases ph with
  | prompt =>
    intro k hk hlive
    have he := hmono k hk hlive
    rw [he] at hlive
    exact hpi k (hlen ▸ hk) hlive
  | fgEntered i =>
    refine ⟨hlen ▸ hpi.1, ?_⟩
    intro k hk hlive
    have he := hmono k hk hlive
    rw [he] at hlive
    exact hpi.2 k (hlen ▸ hk) hlive
  | preWait p =>
    intro k hk hlive
    have he := hmono k hk hlive
    rw [he] at hlive ⊢
    exact hpi k (hlen ▸ hk) hlive
  | waiting j p =>
    intro k hk hlive
    have he := hmono k hk hlive
    rw [he] at hlive ⊢
    exact hpi k (hlen ▸ hk) hlive

theorem inv_core_addjob (t : JobTable) (n p : Int) (jst : JState) (cmd : String)
    (hp : p = 0 ∨ (1 ≤ p ∧ ∀ jb ∈ t, jb.pid ≠ p))
    (hz : ∀ jb ∈ t, (jb.pid = 0 ↔ jb.jid = 0))
    (hjl : ∀ jb ∈ t, jb.jid < n) (hone : 1 ≤ n)
    (hpU : FieldUniq (fun jb => jb.pid) t)
    (hjU : FieldUniq (fun jb => jb.jid) t) :
    (∀ jb ∈ (addjob t n p jst cmd).1, (jb.pid = 0 ↔ jb.jid = 0)) ∧
    (∀ jb ∈ (addjob t n p jst cmd).1, jb.jid < (addjob t n p jst cmd).2.1) ∧
    1 ≤ (addjob t n p jst cmd).2.1 ∧
    FieldUniq (fun jb => jb.pid) (addjob t n p jst cmd).1 ∧
    FieldUniq (fun jb => jb.jid) (addjob t n p jst cmd).1 := by
  rcases addjob_cases t n p jst cmd with he | ⟨m, hm, hp1, hm0, he⟩
  · rw [he]
    exact ⟨hz, hjl, hone, hpU, hjU⟩
  · rw [he]
    have hfresh : ∀ jb ∈ t, jb.pid ≠ p := by
      rcases hp with h0 | ⟨_, hf⟩
      · intro jb _
        omega
      · exact hf
    refine ⟨?_, ?_, ?_, ?_, ?_⟩
    · refine forall_mem_set t m _ hz ?_
      show ((p = 0) ↔ (n = 0))
      constructor
      · intro h2
        omega
      · intro h2
        omega
    · refine forall_mem_set t m _ (fun jb hjb => ?_) ?_
      · have := hjl jb hjb
        show jb.jid < n + 1
        omega
      · show n < n + 1
        omega
    · show (1 : Int) ≤ n + 1
      omega
    · refine fieldUniq_set _ t m _ hpU (Or.inr ?_)
      intro jb hjb
      exact hfresh jb hjb
    · refine fieldUniq_set _ t m _ hjU (Or.inr ?_)
      intro jb hjb
      have := hjl jb hjb
      show jb.jid ≠ n
      omega

theorem noLiveFg_addjob_bg (t : JobTable) (n p : Int) (cmd : String)
    (hnl : NoLiveFg t) : NoLiveFg (addjob t n p JState.bg cmd).1 := by
  rcases addjob_cases t n p JState.bg cmd with he | ⟨m, hm, _, _, he⟩
  · rw [he]
    exact hnl
  · rw [he]
    intro k hk hlive
    rcases get_set_cases t m ⟨p, n, JState.bg, cmd⟩ k hk with ⟨_, hv⟩ | ⟨_, hv⟩
    · rw [hv] at hlive
      exact absurd hlive.1 (by simp)
    · rw [hv] at hlive
      exact hnl k (by simpa using hk) hlive

theorem preWait_addjob_fg (t : JobTable) (n p : Int) (cmd : String)
    (hnl : NoLiveFg t) :
    PhaseInv (addjob t n p JState.fg cmd).1 (Phase.preWait p) := by
  rcases addjob_cases t n p JState.fg cmd with he | ⟨m, hm, _, _, he⟩
  · rw [he]
    intro k hk hlive
    exact absurd hlive (hnl k hk)
  · rw [he]
    intro k hk hlive
    rcases get_set_cases t m ⟨p, n, JState.fg, cmd⟩ k hk with ⟨_, hv⟩ | ⟨_, hv⟩
    · rw [hv]
    · rw [hv] at hlive
      exact absurd hlive (hnl k (by simpa using hk))

theorem noLiveFg_setState_bg (t : JobTable) (i : Nat) (hnl : NoLiveFg t) :
    NoLiveFg (setStateAt t i JState.bg) := by
  by_cases hi : i < t.length
  · rw [setStateAt_eq t i JState.bg hi]
    intro k hk hlive
    rcases get_set_cases t i { t.get ⟨i, hi⟩ with state := JState.bg } k hk with
      ⟨_, hv⟩ | ⟨_, hv⟩
    · rw [hv] at hlive
      exact absurd hlive.1 (by simp)
    · rw [hv] at hlive
      exact hnl k (by simpa using hk) hlive
  · have h : t.get? i = none := by
      rw [List.get?_eq_getElem?]
      exact List.getElem?_eq_none (by omega)
    rw [setStateAt, h]
    exact hnl

theorem fgEntered_setState (t : JobTable) (i : Nat) (hi : i < t.length)
    (hnl : NoLiveFg t) :
    PhaseInv (setStateAt t i JState.fg) (Phase.fgEntered i) := by
  rw [setStateAt_eq t i JState.fg hi]
  constructor
  · simpa using hi
  · intro k hk hlive
    rcases get_set_cases t i { t.get ⟨i, hi⟩ with state := JState.fg } k hk with
      ⟨he, _⟩ | ⟨_, hv⟩
    · exact he
    · rw [hv] at hlive
      exact absurd hlive (hnl k (by simpa using hk))

theorem waiting_capture (t : JobTable) (p : Int)
    (hpU : FieldUniq (fun jb => jb.pid) t)
    (hpre : PhaseInv t (Phase.preWait p)) :
    PhaseInv t (Phase.waiting (getjobpid t p) p) := by
  intro k hk hlive
  have hpid : (t.get ⟨k, hk⟩).pid = p := hpre k hk hlive
  refine ⟨?_, hpid⟩
  show getjobpid t p = some k
  refine findSlot_eq_some_of hk ?_ ?_
  · simpa using hpid
  · intro m hmk
    simp only [decide_eq_false_iff_not]
    intro hmp
    have hne : k ≠ m := fun e => (Nat.lt_irrefl m (e ▸ hmk))
    have h2 := hpU k hk m (Nat.lt_trans hmk hk) hne (by simpa [hpid] using hlive.2)
    exact h2 (hpid.trans hmp.symm)

theorem prompt_after_wait (t : JobTable) (j : Option Nat) (p : Int)
    (hw : PhaseInv t (Phase.waiting j p))
    (hdone : ¬ WaitLoopCond t j p) : NoLiveFg t := by
  intro k hk hlive
  obtain ⟨hj, hpid⟩ := hw k hk hlive
  exact hdone ⟨k, hj, t.get ⟨k, hk⟩, List.get?_eq_get hk, hpid, hlive.1⟩

theorem resolveSpec_lt (t : JobTable) (id : String) (i : Nat)
    (h : resolveSpec t id = some i) : i < t.length := by
  unfold resolveSpec at h
  split at h
  · rw [getjobjid] at h
    obtain ⟨hm, _⟩ := findSlot_some h
    exact hm
  · rw [getjobpid] at h
    obtain ⟨hm, _⟩ := findSlot_some h
    exact hm

theorem setStateAt_oob (t : JobTable) (i : Nat) (jst : JState)
    (hi : ¬ i < t.length) : setStateAt t i jst = t := by
  have h : t.get? i = none := by
    rw [List.get?_eq_getElem?]
    exact List.getElem?_eq_none (by omega)
  rw [setStateAt, h]

theorem inv_core_setState (t : JobTable) (i : Nat) (jst : JState) (n : Int)
    (hz : ∀ jb ∈ t, (jb.pid = 0 ↔ jb.jid = 0))
    (hjl : ∀ jb ∈ t, jb.jid < n)
    (hpU : FieldUniq (fun jb => jb.pid) t)
    (hjU : FieldUniq (fun jb => jb.jid) t) :
    (∀ jb ∈ setStateAt t i jst, (jb.pid = 0 ↔ jb.jid = 0)) ∧
    (∀ jb ∈ setStateAt t i jst, jb.jid < n) ∧
    FieldUniq (fun jb => jb.pid) (setStateAt t i jst) ∧
    FieldUniq (fun jb => jb.jid) (setStateAt t i jst) := by
  by_cases hi : i < t.length
  · rw [setStateAt_eq t i jst hi]
    have hmem := List.get_mem t i hi
    refine ⟨forall_mem_set t i _ hz ?_, forall_mem_set t i _ hjl ?_,
      fieldUniq_set_same _ t i _ hi hpU rfl,
      fieldUniq_set_same _ t i _ hi hjU rfl⟩
    · show ((t.get ⟨i, hi⟩).pid = 0 ↔ (t.get ⟨i, hi⟩).jid = 0)
      exact hz _ hmem
    · show (t.get ⟨i, hi⟩).jid < n
      exact hjl _ hmem
  · rw [setStateAt_oob t i jst hi]
    exact ⟨hz, hjl, hpU, hjU⟩

theorem inv_core_delete (t : JobTable) (p n : Int)
    (hz : ∀ jb ∈ t, (jb.pid = 0 ↔ jb.jid = 0))
    (hjl : ∀ jb ∈ t, jb.jid < n) (hone : 1 ≤ n)
    (hpU : FieldUniq (fun jb => jb.pid) t)
    (hjU : FieldUniq (fun jb => jb.jid) t) :
    (∀ jb ∈ (deletejob t p).1, (jb.pid = 0 ↔ jb.jid = 0)) ∧
    (∀ jb ∈ (deletejob t p).1, jb.jid < n) ∧
    FieldUniq (fun jb => jb.pid) (deletejob t p).1 ∧
    FieldUniq (fun jb => jb.jid) (deletejob t p).1 := by
  rcases deletejob_table t p with he | ⟨m, hm, he⟩
  · rw [he]
    exact ⟨hz, hjl, hpU, hjU⟩
  · rw [he]
    refine ⟨forall_mem_set t m _ hz (by simp [clearedJob]),
      forall_mem_set t m _ hjl ?_,
      fieldUniq_set _ t m _ hpU (Or.inl rfl),
      fieldUniq_set _ t m _ hjU (Or.inl rfl)⟩
    show clearedJob.jid < n
    show (0 : Int) < n
    omega

theorem phase_mono_delete (t : JobTable) (p : Int) (ph : Phase)
    (hpi : PhaseInv t ph) : PhaseInv (deletejob t p).1 ph := by
  rcases deletejob_table t p with he | ⟨m, hm, he⟩
  · rw [he]
    exact hpi
  · rw [he]
    refine phaseInv_mono t _ ph (by simp) ?_ hpi
    intro k hk hlive
    rcases get_set_cases t m clearedJob k hk with ⟨_, hv⟩ | ⟨_, hv⟩
    · rw [hv] at hlive
      exact absurd hlive.1 (by decide)
    · exact hv

theorem phase_mono_stop (t : JobTable) (p : Int) (ph : Phase)
    (hpi : PhaseInv t ph) : PhaseInv (applyStop t p) ph := by
  rcases applyStop_table t p with he | ⟨m, hm, he⟩
  · rw [he]
    exact hpi
  · rw [he]
    refine phaseInv_mono t _ ph (by simp) ?_ hpi
    intro k hk hlive
    rcases get_set_cases t m { t.get ⟨m, hm⟩ with state := JState.st } k hk with
      ⟨_, hv⟩ | ⟨_, hv⟩
    · rw [hv] at hlive
      exact absurd hlive.1 (by simp)
    · exact hv

theorem inv_core_stop (t : JobTable) (p n : Int)
    (hz : ∀ jb ∈ t, (jb.pid = 0 ↔ jb.jid = 0))
    (hjl : ∀ jb ∈ t, jb.jid < n)
    (hpU : FieldUniq (fun jb => jb.pid) t)
    (hjU : FieldUniq (fun jb => jb.jid) t) :
    (∀ jb ∈ applyStop t p, (jb.pid = 0 ↔ jb.jid = 0)) ∧
    (∀ jb ∈ applyStop t p, jb.jid < n) ∧
    FieldUniq (fun jb => jb.pid) (applyStop t p) ∧
    FieldUniq (fun jb => jb.jid) (applyStop t p) := by
  rw [applyStop]
  cases hf : getjobpid t p with
  | none => exact ⟨hz, hjl, hpU, hjU⟩
  | some m => exact inv_core_setState t m JState.st n hz hjl hpU hjU

/-- Every shell transition preserves the inductive invariant. -/
theorem step_preserves_inv {s s2 : Shell} (hst : Step s s2) (hinv : Inv s) :
    Inv s2 := by
  obtain ⟨hz, hjl, hone, hpU, hjU, hpi⟩ := hinv
  cases hst with
  | launchBG p cmd hph hp =>
    obtain ⟨hz2, hjl2, hone2, hpU2, hjU2⟩ :=
      inv_core_addjob s.table s.nextJid p JState.bg cmd hp hz hjl hone hpU hjU
    refine ⟨hz2, hjl2, hone2, hpU2, hjU2, ?_⟩
    have hnl : NoLiveFg s.table := by
      rw [hph] at hpi
      exact hpi
    exact noLiveFg_addjob_bg s.table s.nextJid p cmd hnl
  | launchFG p cmd hph hp =>
    obtain ⟨hz2, hjl2, hone2, hpU2, hjU2⟩ :=
      inv_core_addjob s.table s.nextJid p JState.fg cmd hp hz hjl hone hpU hjU
    refine ⟨hz2, hjl2, hone2, hpU2, hjU2, ?_⟩
    have hnl : NoLiveFg s.table := by
      rw [hph] at hpi
      exact hpi
    exact preWait_addjob_fg s.table s.nextJid p cmd hnl
  | bgBuiltin id i hph hres =>
    obtain ⟨hz2, hjl2, hpU2, hjU2⟩ :=
      inv_core_setState s.table i JState.bg s.nextJid hz hjl hpU hjU
    refine ⟨hz2, hjl2, hone, hpU2, hjU2, ?_⟩
    have hnl : NoLiveFg s.table := by
      rw [hph] at hpi
      exact hpi
    show PhaseInv (setStateAt s.table i JState.bg) s.phase
    rw [hph]
    exact noLiveFg_setState_bg s.table i hnl
  | fgBuiltin id i hph hres =>
    obtain ⟨hz2, hjl2, hpU2, hjU2⟩ :=
      inv_core_setState s.table i JState.fg s.nextJid hz hjl hpU hjU
    refine ⟨hz2, hjl2, hone, hpU2, hjU2, ?_⟩
    have hnl : NoLiveFg s.table := by
      rw [hph] at hpi
      exact hpi
    exact fgEntered_setState s.table i (resolveSpec_lt s.table id i hres) hnl
  | fgReadPid i hi hph =>
    refine ⟨hz, hjl, hone, hpU, hjU, ?_⟩
    have hfe : PhaseInv s.table (Phase.fgEntered i) := by
      rw [hph] at hpi
      exact hpi
    intro k hk hlive
    have hk_eq := hfe.2 k hk hlive
    subst hk_eq
    rfl
  | waitCapture p hph =>
    refine ⟨hz, hjl, hone, hpU, hjU, ?_⟩
    have hpw : PhaseInv s.table (Phase.preWait p) := by
      rw [hph] at hpi
      exact hpi
    exact waiting_capture s.table p hpU hpw
  | waitReturn j p hph hdone =>
    refine ⟨hz, hjl, hone, hpU, hjU, ?_⟩
    have hw : PhaseInv s.table (Phase.waiting j p) := by
      rw [hph] at hpi
      exact hpi
    exact prompt_after_wait s.table j p hw hdone
  | reapDelete p hp =>
    obtain ⟨hz2, hjl2, hpU2, hjU2⟩ :=
      inv_core_delete s.table p s.nextJid hz hjl hone hpU hjU
    exact ⟨hz2, hjl2, hone, hpU2, hjU2, phase_mono_delete s.table p s.phase hpi⟩
  | reapStop p hp =>
    obtain ⟨hz2, hjl2, hpU2, hjU2⟩ :=
      inv_core_stop s.table p s.nextJid hz hjl hpU hjU
    exact ⟨hz2, hjl2, hone, hpU2, hjU2, phase_mono_stop s.table p s.phase hpi⟩

/-- Every reachable shell state satisfies the invariant. -/
theorem reachable_inv (s : Shell) (h : Reachable s) : Inv s := by
  induction h with
  | refl => exact inv_init
  | tail _ hstep ih => exact step_preserves_inv hstep ih

/-- Boolean form of `isLiveFg`, for counting. -/
def isLiveFgB (jb : Job) : Bool := decide (isLiveFg jb)

/-- Number of actual jobs in Running-Foreground state. -/
def fgLiveCount (t : JobTable) : Nat := t.countP isLiveFgB

theorem countP_le_one_of_unique (l : List Job) (p : Job → Bool)
    (h : ∀ i (hi : i < l.length), ∀ k (hk : k < l.length),
      p (l.get ⟨i, hi⟩) = true → p (l.get ⟨k, hk⟩) = true → i = k) :
    l.countP p ≤ 1 := by
  induction l with
  | nil => simp
  | cons a tl ih =>
    by_cases hpa : p a = true
    · have htl : ∀ jb ∈ tl, ¬ p jb = true := by
        intro jb hjb hb
        obtain ⟨⟨m, hm⟩, he⟩ := List.mem_iff_get.mp hjb
        have hb2 : p (tl.get ⟨m, hm⟩) = true := by
          rw [he]
          exact hb
        have h0 := h 0 (Nat.succ_pos _) (m + 1) (Nat.succ_lt_succ hm)
          (by simpa using hpa) (by simpa using hb2)
        exact Nat.succ_ne_zero m h0.symm
      have hzc : tl.countP p = 0 := by
        rw [List.countP_eq_zero]
        exact htl
      rw [List.countP_cons]
      simp [hpa, hzc]
    · have ihh := ih (fun i hi k hk h1 h2 => by
        have h0 := h (i + 1) (Nat.succ_lt_succ hi) (k + 1) (Nat.succ_lt_succ hk)
          (by simpa using h1) (by simpa using h2)
        omega)
      rw [List.countP_cons]
      simp [hpa]
      exact ihh

/-- C7.  In every reachable state of the shell, at most one job in the table
is in Running-Foreground state: the foreground launch and the fg built-in —
the only operations that set a job's state to FG — both start from a state
with no foreground job (the main flow is at the prompt, where the previous
waitfg has already observed its job leave FG) and create exactly one, so the
count of FG jobs is always 0 or 1. -/
theorem c7_at_most_one_fg (s : Shell) (h : Reachable s) :
    fgLiveCount s.table ≤ 1 := by
  obtain ⟨_, _, _, hpU, _, hpi⟩ := reachable_inv s h
  cases hph : s.phase with
  | prompt =>
    rw [hph] at hpi
    have hzc : s.table.countP isLiveFgB = 0 := by
      rw [List.countP_eq_zero]
      intro jb hjb hb
      obtain ⟨⟨m, hm⟩, he⟩ := List.mem_iff_get.mp hjb
      have hl : isLiveFg jb := of_decide_eq_true hb
      rw [← he] at hl
      exact hpi m hm hl
    rw [fgLiveCount, hzc]
    omega
  | fgEntered i =>
    rw [hph] at hpi
    apply countP_le_one_of_unique
    intro i1 hi1 k hk h1 h2
    have l1 : isLiveFg (s.table.get ⟨i1, hi1⟩) := of_decide_eq_true h1
    have l2 : isLiveFg (s.table.get ⟨k, hk⟩) := of_decide_eq_true h2
    exact (hpi.2 i1 hi1 l1).trans (hpi.2 k hk l2).symm
  | preWait p =>
    rw [hph] at hpi
    apply countP_le_one_of_unique
    intro i1 hi1 k hk h1 h2
    have l1 : isLiveFg (s.table.get ⟨i1, hi1⟩) := of_decide_eq_true h1
    have l2 : isLiveFg (s.table.get ⟨k, hk⟩) := of_decide_eq_true h2
    by_contra hne
    have e1 : (s.table.get ⟨i1, hi1⟩).pid = p := hpi i1 hi1 l1
    have e2 : (s.table.get ⟨k, hk⟩).pid = p := hpi k hk l2
    exact hpU i1 hi1 k hk hne l1.2 (e1.trans e2.symm)
  | waiting j p =>
    rw [hph] at hpi
    apply countP_le_one_of_unique
    intro i1 hi1 k hk h1 h2
    have l1 : isLiveFg (s.table.get ⟨i1, hi1⟩) := of_decide_eq_true h1
    have l2 : isLiveFg (s.table.get ⟨k, hk⟩) := of_decide_eq_true h2
    have e1 := (hpi i1 hi1 l1).1
    have e2 := (hpi k hk l2).1
    rw [e1] at e2
    exact Option.some_inj.mp e2

theorem c7_at_most_one_fg_witness : fgLiveCount initShell.table ≤ 1 :=
  c7_at_most_one_fg initShell Relation.ReflTransGen.refl

theorem step_nextJid_le {s s2 : Shell} (hst : Step s s2) :
    s.nextJid ≤ s2.nextJid := by
  cases hst with
  | launchBG p cmd hph hp =>
    show s.nextJid ≤ (addjob s.table s.nextJid p JState.bg cmd).2.1
    rcases addjob_cases s.table s.nextJid p JState.bg cmd with he | ⟨m, hm, _, _, he⟩
    · rw [he]
    · rw [he]
      show s.nextJid ≤ s.nextJid + 1
      omega
  | launchFG p cmd hph hp =>
    show s.nextJid ≤ (addjob s.table s.nextJid p JState.fg cmd).2.1
    rcases addjob_cases s.table s.nextJid p JState.fg cmd with he | ⟨m, hm, _, _, he⟩
    · rw [he]
    · rw [he]
      show s.nextJid ≤ s.nextJid + 1
      omega
  | bgBuiltin id i hph hres => exact Int.le_refl _
  | fgBuiltin id i hph hres => exact Int.le_refl _
  | fgReadPid i hi hph => exact Int.le_refl _
  | waitCapture p hph => exact Int.le_refl _
  | waitReturn j p hph hdone => exact Int.le_refl _
  | reapDelete p hp => exact Int.le_refl _
  | reapStop p hp => exact Int.le_refl _

theorem star_nextJid_le {s s2 : Shell}
    (h : Relation.ReflTransGen Step s s2) : s.nextJid ≤ s2.nextJid := by
  induction h with
  | refl => exact Int.le_refl _
  | tail _ hstep ih => exact Int.le_trans ih (step_nextJid_le hstep)

theorem step_bump_assigns {s s2 : Shell} (hst : Step s s2)
    (hb : s2.nextJid = s.nextJid + 1) :
    ∃ m, ∃ hm : m < s2.table.length,
      (s2.table.get ⟨m, hm⟩).jid = s.nextJid ∧
      (s2.table.get ⟨m, hm⟩).pid ≠ 0 := by
  cases hst with
  | launchBG p cmd hph hp =>
    rcases addjob_cases s.table s.nextJid p JState.bg cmd with he | ⟨m, hm, hp1, _, he⟩
    · exfalso
      have h2 : (addjob s.table s.nextJid p JState.bg cmd).2.1 = s.nextJid + 1 := hb
      rw [he] at h2
      have h3 : s.nextJid = s.nextJid + 1 := h2
      omega
    · have hms : m < (addjob s.table s.nextJid p JState.bg cmd).1.length := by
        rw [he]
        simpa using hm
      refine ⟨m, hms, ?_⟩
      have hms2 : m < ((s.table.set m ⟨p, s.nextJid, JState.bg, cmd⟩).length) := by
        simpa using hm
      have ha : (addjob s.table s.nextJid p JState.bg cmd).1.get? m =
          some (⟨p, s.nextJid, JState.bg, cmd⟩ : Job) := by
        rw [he]
        show (s.table.set m ⟨p, s.nextJid, JState.bg, cmd⟩).get? m = _
        rw [List.get?_eq_get hms2]
        rw [get_set_self]
      have hv : (addjob s.table s.nextJid p JState.bg cmd).1.get ⟨m, hms⟩ =
          (⟨p, s.nextJid, JState.bg, cmd⟩ : Job) := by
        have h1 := List.get?_eq_get hms
        rw [ha] at h1
        exact (Option.some_inj.mp h1).symm
      rw [hv]
      refine ⟨rfl, ?_⟩
      show p ≠ 0
      omega
  | launchFG p cmd hph hp =>
    rcases addjob_cases s.table s.nextJid p JState.fg cmd with he | ⟨m, hm, hp1, _, he⟩
    · exfalso
      have h2 : (addjob s.table s.nextJid p JState.fg cmd).2.1 = s.nextJid + 1 := hb
      rw [he] at h2
      have h3 : s.nextJid = s.nextJid + 1 := h2
      omega
    · have hms : m < (addjob s.table s.nextJid p JState.fg cmd).1.length := by
        rw [he]
        simpa using hm
      refine ⟨m, hms, ?_⟩
      have hms2 : m < ((s.table.set m ⟨p, s.nextJid, JState.fg, cmd⟩).length) := by
        simpa using hm
      have ha : (addjob s.table s.nextJid p JState.fg cmd).1.get? m =
          some (⟨p, s.nextJid, JState.fg, cmd⟩ : Job) := by
        rw [he]
        show (s.table.set m ⟨p, s.nextJid, JState.fg, cmd⟩).get? m = _
        rw [List.get?_eq_get hms2]
        rw [get_set_self]
      have hv : (addjob s.table s.nextJid p JState.fg cmd).1.get ⟨m, hms⟩ =
          (⟨p, s.nextJid, JState.fg, cmd⟩ : Job) := by
        have h1 := List.get?_eq_get hms
        rw [ha] at h1
        exact (Option.some_inj.mp h1).symm
      rw [hv]
      refine ⟨rfl, ?_⟩
      show p ≠ 0
      omega
  | bgBuiltin id i hph hres =>
    exact absurd hb (by show ¬ s.nextJid = s.nextJid + 1; omega)
  | fgBuiltin id i hph hres =>
    exact absurd hb (by show ¬ s.nextJid = s.nextJid + 1; omega)
  | fgReadPid i hi hph =>
    exact absurd hb (by show ¬ s.nextJid = s.nextJid + 1; omega)
  | waitCapture p hph =>
    exact absurd hb (by show ¬ s.nextJid = s.nextJid + 1; omega)
  | waitReturn j p hph hdone =>
    exact absurd hb (by show ¬ s.nextJid = s.nextJid + 1; omega)
  | reapDelete p hp =>
    exact absurd hb (by show ¬ s.nextJid = s.nextJid + 1; omega)
  | reapStop p hp =>
    exact absurd hb (by show ¬ s.nextJid = s.nextJid + 1; omega)

/-- C6.  In every reachable state, live jobs (slots with a nonzero pgid)
have pairwise distinct pgids and pairwise distinct jids (conjunct 1); the
jid counter never decreases across any transition (conjunct 2); a
transition that bumps the counter is a successful add whose new job carries
jid = the counter before the add and a real pgid (conjunct 3); hence for
any two jobs successfully added in order A then B, jid(A) < jid(B)
(conjunct 4): jids are strictly increasing over the shell's lifetime and
never reused for a different live job. -/
theorem c6_unique_monotonic_ids :
    (∀ s : Shell, Reachable s →
      ∀ i (hi : i < s.table.length), ∀ k (hk : k < s.table.length), i ≠ k →
        (s.table.get ⟨i, hi⟩).pid ≠ 0 →
        (s.table.get ⟨i, hi⟩).pid ≠ (s.table.get ⟨k, hk⟩).pid ∧
        (s.table.get ⟨i, hi⟩).jid ≠ (s.table.get ⟨k, hk⟩).jid) ∧
    (∀ s s2 : Shell, Step s s2 → s.nextJid ≤ s2.nextJid) ∧
    (∀ s s2 : Shell, Step s s2 → s2.nextJid = s.nextJid + 1 →
      ∃ m, ∃ hm : m < s2.table.length,
        (s2.table.get ⟨m, hm⟩).jid = s.nextJid ∧
        (s2.table.get ⟨m, hm⟩).pid ≠ 0) ∧
    (∀ sA sA2 sB sB2 : Shell,
      Reachable sA →
      Step sA sA2 → sA2.nextJid = sA.nextJid + 1 →
      Relation.ReflTransGen Step sA2 sB →
      Step sB sB2 → sB2.nextJid = sB.nextJid + 1 →
      sA.nextJid < sB.nextJid) := by
  refine ⟨?_, fun s s2 h => step_nextJid_le h,
    fun s s2 h hb => step_bump_assigns h hb, ?_⟩
  · intro s hr i hi k hk hne hnz
    obtain ⟨hzI, _, _, hpU, hjU, _⟩ := reachable_inv s hr
    refine ⟨hpU i hi k hk hne hnz, ?_⟩
    have hjz : (s.table.get ⟨i, hi⟩).jid ≠ 0 := by
      intro hjid0
      exact hnz ((hzI _ (List.get_mem s.table i hi)).mpr hjid0)
    exact hjU i hi k hk hne hjz
  · intro sA sA2 sB sB2 _ h1 hb1 hstar h2 hb2
    have hle := star_nextJid_le hstar
    omega

theorem c6_unique_monotonic_ids_witness :
    initShell.nextJid <
      (addjob initShell.table initShell.nextJid 5 JState.bg "sleep 5 &").2.1 := by
  have hA : Step initShell
      { table := (addjob initShell.table initShell.nextJid 5 JState.bg "sleep 5 &").1,
        nextJid := (addjob initShell.table initShell.nextJid 5 JState.bg "sleep 5 &").2.1,
        phase := Phase.prompt } :=
    Step.launchBG initShell 5 "sleep 5 &" rfl (Or.inr ⟨by decide, by decide⟩)
  have hB : Step
      { table := (addjob initShell.table initShell.nextJid 5 JState.bg "sleep 5 &").1,
        nextJid := (addjob initShell.table initShell.nextJid 5 JState.bg "sleep 5 &").2.1,
        phase := Phase.prompt }
      { table := (addjob
          (addjob initShell.table initShell.nextJid 5 JState.bg "sleep 5 &").1
          (addjob initShell.table initShell.nextJid 5 JState.bg "sleep 5 &").2.1
          7 JState.bg "sleep 7 &").1,
        nextJid := (addjob
          (addjob initShell.table initShell.nextJid 5 JState.bg "sleep 5 &").1
          (addjob initShell.table initShell.nextJid 5 JState.bg "sleep 5 &").2.1
          7 JState.bg "sleep 7 &").2.1,
        phase := Phase.prompt } :=
    Step.launchBG _ 7 "sleep 7 &" rfl (Or.inr ⟨by decide, by decide⟩)
  exact c6_unique_monotonic_ids.2.2.2 initShell _ _ _
    Relation.ReflTransGen.refl hA (by decide)
    Relation.ReflTransGen.refl hB (by decide)

end TShell
